import Mathlib

/-!
# Verification of the legal appeal outcome prediction core

This development embeds the core of the legal appeal outcome prediction
system (calibrator, input validator, text normalizer, precedent index,
step sequencer, and the result page helpers of the frontend) and proves
the testable properties stated in the specification.

Probabilities are embedded as rationals, text as lists of characters,
embedding vectors as lists of rationals.
-/

set_option maxRecDepth 100000

namespace Capstone

/-! ## Calibrator -/

/-- Modelled from the spec: the calibration function
`calibrate_probability_for_text_length` of `backend/utils/model_loader.py`
is not part of the repository snapshot; only its documentation
(`backend/docs/prediction_calibration_fix.md`) is.  This definition follows
section 4.4 of the spec and the documented testing table: win-leaning
probabilities on very short texts (< 200 chars) keep only 30% of the excess
over 0.5, on short texts (< 500 chars) 50% of that excess, and remaining
very high probabilities (> 0.95) are compressed toward the 0.965 ceiling by
keeping 30% of the excess over 0.95 (matching the documented values
0.9999 to 0.9650, 0.98 to 0.9590, 0.97 to 0.9560, and the 239-character
example 0.9993 to 0.74965, which shows that the short-text rules take
priority over the high-confidence cap). -/
def calibratedProb (p : ℚ) (len : ℕ) : ℚ :=
  if 1/2 < p then
    if len < 200 then 1/2 + (p - 1/2) * (3/10)
    else if len < 500 then 1/2 + (p - 1/2) * (1/2)
    else if 19/20 < p then 19/20 + (p - 19/20) * (3/10)
    else p
  else p

/-- Modelled from the spec: the uncertainty flag is set when the
pre-adjustment probability exceeded 0.85 on short text (< 500 chars) or
0.90 on any text. -/
def uncertainFlag (p : ℚ) (len : ℕ) : Bool :=
  decide ((17/20 < p ∧ len < 500) ∨ 9/10 < p)

/-- Modelled from the spec: `calibrate(rawProbability, textLengthChars)`
returns the corrected probability together with the uncertainty flag. -/
def calibrate (p : ℚ) (len : ℕ) : ℚ × Bool :=
  (calibratedProb p len, uncertainFlag p len)

/-- C1: for every raw probability p with 0.95 < p ≤ 1 and every text
length, the calibrated probability is strictly less than p and strictly
less than 0.97. -/
theorem calibrate_caps_high_probability (p : ℚ) (len : ℕ)
    (h1 : 19/20 < p) (h2 : p ≤ 1) :
    (calibrate p len).1 < p ∧ (calibrate p len).1 < 97/100 := by
  have hw : (1:ℚ)/2 < p := by linarith
  simp only [calibrate, calibratedProb, hw, if_true]
  split_ifs with hl1 hl2
  · constructor <;> nlinarith
  · constructor <;> nlinarith
  · constructor <;> nlinarith

/-- Witness for C1 at p = 0.995 and text length 1000. -/
theorem calibrate_caps_high_probability_witness :
    (19:ℚ)/20 < 199/200 ∧ (199:ℚ)/200 ≤ 1 ∧
      ((calibrate (199/200) 1000).1 < 199/200 ∧
        (calibrate (199/200) 1000).1 < 97/100) :=
  ⟨by norm_num, by norm_num,
    calibrate_caps_high_probability (199/200) 1000 (by norm_num) (by norm_num)⟩

/-- C2: for every raw probability p ≤ 0.5 and every text length, the
calibrated probability equals p: lose-leaning probabilities are never
discounted. -/
theorem calibrate_preserves_lose_leaning (p : ℚ) (len : ℕ)
    (h : p ≤ 1/2) :
    (calibrate p len).1 = p := by
  have hw : ¬ (1:ℚ)/2 < p := by linarith
  show calibratedProb p len = p
  unfold calibratedProb
  rw [if_neg hw]

/-- Witness for C2 at p = 0.25 and text length 50. -/
theorem calibrate_preserves_lose_leaning_witness :
    (1:ℚ)/4 ≤ 1/2 ∧ (calibrate (1/4) 50).1 = 1/4 :=
  ⟨by norm_num, calibrate_preserves_lose_leaning (1/4) 50 (by norm_num)⟩

/-- C3: for a 239-character text with raw win probability p ≈ 0.999
(any p with 0.99 ≤ p ≤ 1), the calibrated probability lies in
[0.70, 0.80], the uncertain flag is true, and the probability stays above
the 0.5 threshold so the predicted label remains win. -/
theorem calibrate_short_text_scenario (p : ℚ)
    (h1 : 99/100 ≤ p) (h2 : p ≤ 1) :
    (7/10 ≤ (calibrate p 239).1 ∧ (calibrate p 239).1 ≤ 4/5) ∧
      (calibrate p 239).2 = true ∧ 1/2 < (calibrate p 239).1 := by
  have hw : (1:ℚ)/2 < p := by linarith
  have hu : (17:ℚ)/20 < p := by linarith
  have hval : (calibrate p 239).1 = 1/2 + (p - 1/2) * (1/2) := by
    show calibratedProb p 239 = _
    unfold calibratedProb
    rw [if_pos hw, if_neg (by norm_num : ¬ (239 < 200)),
      if_pos (by norm_num : 239 < 500)]
  refine ⟨⟨?_, ?_⟩, ?_, ?_⟩
  · rw [hval]; nlinarith
  · rw [hval]; nlinarith
  · simp only [calibrate, uncertainFlag, decide_eq_true_eq]
    exact Or.inl ⟨hu, by norm_num⟩
  · rw [hval]; nlinarith

/-- Witness for C3 at the documented raw probability 0.9993. -/
theorem calibrate_short_text_scenario_witness :
    (99:ℚ)/100 ≤ 9993/10000 ∧ (9993:ℚ)/10000 ≤ 1 ∧
      ((7/10 ≤ (calibrate (9993/10000) 239).1 ∧
          (calibrate (9993/10000) 239).1 ≤ 4/5) ∧
        (calibrate (9993/10000) 239).2 = true ∧
          1/2 < (calibrate (9993/10000) 239).1) :=
  ⟨by norm_num, by norm_num,
    calibrate_short_text_scenario (9993/10000) (by norm_num) (by norm_num)⟩

/-! ## PrecedentIndex -/

/-- Modelled from the spec: the similar-cases backend endpoint is not part
of the repository snapshot; this definition follows section 4.6 of the spec.
The requested number of precedents is clamped to the interval [1, 10]
(mirrored by the precedents slider of the result page, which ranges over
1..10). -/
def clampK (k : ℕ) : ℕ := max 1 (min k 10)

/-- Dot product of two embedding vectors.  Corpus rows are L2-normalized at
load time and the query vector is normalized before the scan, so the cosine
similarity of section 4.6 is exactly this dot product; the positive
normalizing factor of the raw query vector does not change the ranking. -/
def dotQ (a b : List ℚ) : ℚ := (List.zipWith (fun x y => x * y) a b).sum

/-- Descending similarity, ties broken by ascending corpus insertion
index.  A scored row is a pair (similarity, corpus index). -/
def simOrder (a b : ℚ × ℕ) : Prop := b.1 < a.1 ∨ (a.1 = b.1 ∧ a.2 ≤ b.2)

instance : DecidableRel simOrder := fun a b =>
  inferInstanceAs (Decidable (b.1 < a.1 ∨ (a.1 = b.1 ∧ a.2 ≤ b.2)))

instance : IsTotal (ℚ × ℕ) simOrder := by
  constructor
  intro a b
  rcases lt_trichotomy a.1 b.1 with h | h | h
  · exact Or.inr (Or.inl h)
  · rcases Nat.le_total a.2 b.2 with h2 | h2
    · exact Or.inl (Or.inr ⟨h, h2⟩)
    · exact Or.inr (Or.inr ⟨h.symm, h2⟩)
  · exact Or.inl (Or.inl h)

instance : IsTrans (ℚ × ℕ) simOrder := by
  constructor
  intro a b c hab hbc
  rcases hab with h1 | ⟨h1, h1i⟩ <;> rcases hbc with h2 | ⟨h2, h2i⟩
  · exact Or.inl (h2.trans h1)
  · exact Or.inl (h2 ▸ h1)
  · exact Or.inl (h1 ▸ h2)
  · exact Or.inr ⟨h1.trans h2, h1i.trans h2i⟩

/-- Modelled from the spec: each corpus row paired with its cosine
similarity to the query and its insertion index. -/
def scoredRows (corpus : List (List ℚ)) (q : List ℚ) : List (ℚ × ℕ) :=
  corpus.enum.map (fun ie => (dotQ q ie.2, ie.1))

/-- Modelled from the spec: `PrecedentIndex.query` scores every corpus row,
sorts descending by similarity with ties broken by insertion order, and
returns the first `clampK k` rows; when `k` exceeds the corpus size the
result truncates to the corpus size without error. -/
def queryIndex (corpus : List (List ℚ)) (q : List ℚ) (k : ℕ) : List (ℚ × ℕ) :=
  (List.insertionSort simOrder (scoredRows corpus q)).take (clampK k)

/-- Demonstration corpus of three precedents for the k = 10 scenario. -/
def demoCorpus : List (List ℚ) := [[1, 0], [0, 1], [1, 1]]

/-- Demonstration query vector; its similarities to the rows of
`demoCorpus` are pairwise distinct. -/
def demoQuery : List ℚ := [3, 1]

/-- C4: the query clamps k to [1, 10] and returns exactly
min(clamped k, corpus size) matches, sorted descending by similarity with
ties broken by corpus insertion order; a corpus of 3 precedents queried
with k = 10 yields exactly 3 matches strictly descending by similarity. -/
theorem queryIndex_contract :
    (∀ k, 1 ≤ clampK k ∧ clampK k ≤ 10) ∧
    (∀ corpus q k,
      (queryIndex corpus q k).length = min (clampK k) corpus.length ∧
        List.Sorted simOrder (queryIndex corpus q k)) ∧
    (queryIndex demoCorpus demoQuery 10).length = 3 ∧
    List.Pairwise (fun a b : ℚ × ℕ => b.1 < a.1)
      (queryIndex demoCorpus demoQuery 10) := by
  refine ⟨?_, ?_, ?_, ?_⟩
  · intro k
    constructor
    · exact Nat.le_max_left 1 (min k 10)
    · exact max_le (by norm_num) (Nat.min_le_right k 10)
  · intro corpus q k
    constructor
    · have hperm := List.perm_insertionSort simOrder (scoredRows corpus q)
      have hlen : (List.insertionSort simOrder (scoredRows corpus q)).length
          = corpus.length := by
        rw [hperm.length_eq]
        simp [scoredRows]
      rw [queryIndex, List.length_take, hlen]
    · have hs := List.sorted_insertionSort simOrder (scoredRows corpus q)
      exact List.Pairwise.sublist (List.take_sublist _ _) hs
  · have hres : queryIndex demoCorpus demoQuery 10 = [(4, 2), (3, 0), (1, 1)] := by
      norm_num [queryIndex, scoredRows, dotQ, demoCorpus, demoQuery, clampK,
        List.insertionSort, List.orderedInsert, simOrder, List.enum,
        List.enumFrom]
    rw [hres]
    rfl
  · have hres : queryIndex demoCorpus demoQuery 10 = [(4, 2), (3, 0), (1, 1)] := by
      norm_num [queryIndex, scoredRows, dotQ, demoCorpus, demoQuery, clampK,
        List.insertionSort, List.orderedInsert, simOrder, List.enum,
        List.enumFrom]
    rw [hres]
    norm_num [List.pairwise_cons]

/-! ## Result page helpers (frontend/app/predict/result/page.tsx) -/

/-- The fields of a `PredictionResponse` used by the result page helpers.
Strings are embedded as lists of characters and the probability as a
rational. -/
structure PredictionResponse where
  legal_judgment : List Char
  probability : ℚ

/-- Substring containment, the embedding of the JavaScript
`String.prototype.includes` used at line 893 of
`frontend/app/predict/result/page.tsx`. -/
def containsSub (pat : List Char) : List Char → Bool
  | [] => pat.isEmpty
  | c :: rest => pat.isPrefixOf (c :: rest) || containsSub pat rest

/-- `containsSub` decides the substring (infix) relation. -/
theorem containsSub_iff_substring (pat s : List Char) :
    containsSub pat s = true ↔ pat <:+: s := by
  induction s with
  | nil =>
    simp only [containsSub, List.isEmpty_iff, List.infix_nil]
  | cons c rest ih =>
    simp only [containsSub, Bool.or_eq_true, List.isPrefixOf_iff_prefix, ih,
      List.infix_cons_iff]

/-- Embeds `getDefendantProbability` of
`frontend/app/predict/result/page.tsx` lines 892-899: if the judgment
string contains "Defendant" the probability is used directly, otherwise
the defendant chance is its complement. -/
def getDefendantProbability (pred : PredictionResponse) : ℚ :=
  if containsSub ("Defendant".toList) pred.legal_judgment then pred.probability
  else 1 - pred.probability

/-- Embeds the improvement computation of
`frontend/app/predict/result/page.tsx` line 903. -/
def improvement (original briefBased : PredictionResponse) : ℚ :=
  getDefendantProbability briefBased - getDefendantProbability original

/-- C9: the displayed defendant chance equals the probability field when
the legal judgment contains the substring "Defendant" and its complement
otherwise, and the reported improvement is the brief-based defendant
chance minus the original defendant chance. -/
theorem getDefendantProbability_spec (pred : PredictionResponse) :
    ("Defendant".toList <:+: pred.legal_judgment →
        getDefendantProbability pred = pred.probability) ∧
      (¬ "Defendant".toList <:+: pred.legal_judgment →
        getDefendantProbability pred = 1 - pred.probability) ∧
      ∀ briefBased : PredictionResponse,
        improvement pred briefBased =
          getDefendantProbability briefBased - getDefendantProbability pred := by
  refine ⟨?_, ?_, fun briefBased => rfl⟩
  · intro h
    rw [getDefendantProbability,
      if_pos ((containsSub_iff_substring _ _).mpr h)]
  · intro h
    rw [getDefendantProbability, if_neg]
    intro hc
    exact h ((containsSub_iff_substring _ _).mp hc)

/-- Witness for C9 on the two concrete judgment strings produced by the
backend. -/
theorem getDefendantProbability_spec_witness :
    getDefendantProbability
        ⟨"Judgment in Favor of Defendant".toList, 3/4⟩ = 3/4 ∧
      getDefendantProbability
        ⟨"Judgment in Favor of Plaintiff/Government".toList, 3/4⟩ =
          1 - 3/4 :=
  ⟨(getDefendantProbability_spec
      ⟨"Judgment in Favor of Defendant".toList, 3/4⟩).1
      ⟨"Judgment in Favor of ".toList, [], by rfl⟩,
    (getDefendantProbability_spec
      ⟨"Judgment in Favor of Plaintiff/Government".toList, 3/4⟩).2.1
      (by rw [← containsSub_iff_substring]; simp only []; decide)⟩

/-- The fields of a similar case used by the brief-generation call sites. -/
structure SimilarCase where
  case_name : List Char
  outcome : List Char
deriving DecidableEq

/-- Embeds the winning-case filter computed identically at both
brief-generation call sites of `frontend/app/predict/result/page.tsx`
(lines 710-713 for initial generation and lines 1079-1082 for improvement
regeneration): the similar cases whose outcome field is exactly "win",
or the empty list when no similar-cases response is present. -/
def winningCasesOf (similarCases : Option (List SimilarCase)) :
    List SimilarCase :=
  match similarCases with
  | none => []
  | some cs => cs.filter (fun c => decide (c.outcome = "win".toList))

/-- Embeds the precedent argument passed to `generateBrief` at both call
sites (lines 715-717 and 1084-1086): the winning cases when at least one
exists, and no list at all (undefined, embedded as `none`) otherwise. -/
def precedentsArg (similarCases : Option (List SimilarCase)) :
    Option (List SimilarCase) :=
  let w := winningCasesOf similarCases
  if 0 < w.length then some w else none

/-- C10: every precedent list passed to `generateBrief` contains only
cases whose outcome is "win" and is nonempty; when no winning case
exists, no list is passed at all. -/
theorem precedentsArg_spec (similarCases : Option (List SimilarCase)) :
    (∀ l, precedentsArg similarCases = some l →
        l ≠ [] ∧ ∀ c ∈ l, c.outcome = "win".toList) ∧
      ((∀ c ∈ similarCases.getD [], c.outcome ≠ "win".toList) →
        precedentsArg similarCases = none) := by
  constructor
  · intro l hl
    rw [precedentsArg] at hl
    split_ifs at hl with hpos
    · cases hl
      constructor
      · intro hnil
        rw [hnil] at hpos
        exact absurd hpos (by norm_num)
      · intro c hc
        cases similarCases with
        | none => simp [winningCasesOf] at hc
        | some cs =>
          have := List.mem_filter.mp hc
          exact of_decide_eq_true this.2
  · intro hall
    rw [precedentsArg]
    have hempty : winningCasesOf similarCases = [] := by
      cases similarCases with
      | none => rfl
      | some cs =>
        apply List.filter_eq_nil_iff.mpr
        intro c hc
        simp only [decide_eq_true_eq]
        exact hall c hc
    rw [hempty]
    rfl

/-- Witness for C10 on a concrete mixed similar-cases response and on a
response with no winning case. -/
theorem precedentsArg_spec_witness :
    (([⟨"A".toList, "win".toList⟩] : List SimilarCase) ≠ [] ∧
      ∀ c ∈ ([⟨"A".toList, "win".toList⟩] : List SimilarCase),
        c.outcome = "win".toList) ∧
    precedentsArg
        (some [⟨"A".toList, "lose".toList⟩, ⟨"B".toList, "lose".toList⟩])
      = none :=
  ⟨(precedentsArg_spec
      (some [⟨"A".toList, "win".toList⟩, ⟨"B".toList, "lose".toList⟩])).1
      [⟨"A".toList, "win".toList⟩] (by decide),
    (precedentsArg_spec
      (some [⟨"A".toList, "lose".toList⟩, ⟨"B".toList, "lose".toList⟩])).2
      (by decide)⟩

/-! ## InputValidator and the pre-model pipeline boundary -/

/-- Whitespace characters recognised by the text utilities. -/
def isSpc (c : Char) : Bool :=
  c = ' ' || c = '\n' || c = '\t' || c = '\r'

/-- Modelled from the spec: the minimum accepted text length.
`utils/input_validation.py` is not part of the repository snapshot and the
documentation does not state the concrete bound, only that text below a
minimum length is rejected; the bound is kept abstract as a named
constant. -/
def minLegalTextLength : ℕ := 20

/-- Characters of a pure arithmetic expression such as the documented
rejected input 1+1. -/
def isMathChar (c : Char) : Bool :=
  c.isDigit || c = '+' || c = '-' || c = '*' || c = '/' || c = '=' ||
    c = '.' || c = '(' || c = ')' || isSpc c

/-- Modelled from the spec: `is_valid_legal_text` of
`utils/input_validation.py` is not part of the repository snapshot; this
definition follows section 4.1 of the spec and
`backend/docs/validation_analysis.md`: empty or whitespace-only input,
input below the minimum length, pure arithmetic expressions, repeated
characters, and input with too few alphabetic characters are rejected. -/
def isValidLegalText (s : List Char) : Bool :=
  let content := s.filter (fun c => ! isSpc c)
  ! content.isEmpty &&
    decide (minLegalTextLength ≤ s.length) &&
    ! content.all isMathChar &&
    decide (3 ≤ content.dedup.length) &&
    decide (content.length ≤ 2 * (content.filter Char.isAlpha).length)

/-- Errors surfaced by the prediction pipeline. -/
inductive PipeError where
  | validationError
deriving DecidableEq

/-- Modelled from the spec: the request intake boundary of
`routers/predict.py` (validation layer 1) accepts a text iff the shared
predicate does. -/
def intakeAccepts (s : List Char) : Bool := isValidLegalText s

/-- Modelled from the spec: the pre-embedding boundary of
`routers/predict.py` (validation layer 2) accepts a text iff the shared
predicate does. -/
def preEmbeddingAccepts (s : List Char) : Bool := isValidLegalText s

/-- Modelled from the spec: `encode_text` of `utils/embedding.py`
(validation layer 3) validates its input itself and only embeds valid
text, failing otherwise. -/
def encodeTextChecked (embed : List Char → List ℚ) (s : List Char) :
    Except PipeError (List ℚ) :=
  if isValidLegalText s then Except.ok (embed s) else Except.error .validationError

/-- Whether an embedding attempt succeeded. -/
def isOkE {α : Type} (e : Except PipeError α) : Bool :=
  match e with
  | Except.ok _ => true
  | Except.error _ => false

/-- Modelled from the spec: the prediction pipeline validates the input
first and performs no embedding or model work on invalid input.  The
second component counts how many times the embedder is invoked. -/
def runPredictPipeline (embed : List Char → List ℚ) (classify : List ℚ → ℚ)
    (s : List Char) : Except PipeError (ℚ × Bool) × ℕ :=
  if isValidLegalText s then
    (Except.ok (calibrate (classify (embed s)) s.length), 1)
  else
    (Except.error .validationError, 0)

/-- C6: every input rejected by the validity predicate (such as 1+1, text
below the minimum length, or empty or whitespace input) terminates the
pipeline with a validation error and the embedder is invoked zero times;
the three documented degenerate examples are indeed rejected. -/
theorem pipeline_rejects_degenerate_input :
    (∀ (embed : List Char → List ℚ) (classify : List ℚ → ℚ) (s : List Char),
      isValidLegalText s = false →
        runPredictPipeline embed classify s =
          (Except.error PipeError.validationError, 0)) ∧
    isValidLegalText ("1+1".toList) = false ∧
    isValidLegalText ("short".toList) = false ∧
    isValidLegalText ("   ".toList) = false := by
  refine ⟨?_, by decide, by decide, by decide⟩
  intro embed classify s h
  rw [runPredictPipeline, h]
  rfl

/-- Witness for C6 at the documented degenerate input 1+1 with a concrete
embedder and classifier. -/
theorem pipeline_rejects_degenerate_input_witness :
    isValidLegalText ("1+1".toList) = false ∧
      runPredictPipeline (fun _ => [0]) (fun _ => 0) "1+1".toList =
        (Except.error PipeError.validationError, 0) :=
  ⟨by decide,
    pipeline_rejects_degenerate_input.1 (fun _ => [0]) (fun _ => 0)
      "1+1".toList (by decide)⟩

/-- C7: the validity predicate applied at request intake, the check
applied immediately before embedding, and the check inside the embedding
call accept or reject every input text identically. -/
theorem validation_boundaries_agree (s : List Char) :
    intakeAccepts s = preEmbeddingAccepts s ∧
      ∀ embed : List Char → List ℚ,
        isOkE (encodeTextChecked embed s) = intakeAccepts s := by
  constructor
  · rfl
  · intro embed
    rw [encodeTextChecked, intakeAccepts]
    by_cases h : isValidLegalText s
    · rw [if_pos h, h]
      rfl
    · rw [if_neg h, Bool.eq_false_iff.mpr h]
      rfl

/-! ## StepSequencer -/

/-- The pipeline steps reported as progress, in their fixed order. -/
inductive Step where
  | validation
  | extractingFacts
  | generatingEmbeddings
  | predicting
  | calibratingProbabilities
  | extractingFeatures
  | calculatingLikelihoods
  | determiningJudgment
  | generatingExplanation
deriving DecidableEq

/-- A streamed event: a progress report carrying its step and sequence
number, or one of the two terminal events. -/
inductive Event where
  | progress (s : Step) (seq : ℕ)
  | result (seq : ℕ)
  | error (seq : ℕ)
deriving DecidableEq

/-- The full fixed pipeline order of section 4.7. -/
def fullOrder : List Step :=
  [Step.validation, Step.extractingFacts, Step.generatingEmbeddings,
    Step.predicting, Step.calibratingProbabilities, Step.extractingFeatures,
    Step.calculatingLikelihoods, Step.determiningJudgment,
    Step.generatingExplanation]

/-- Modelled from the spec: the steps actually run for a request; fact
extraction is skipped when facts were supplied directly. -/
def pipelineSteps (factsProvided : Bool) : List Step :=
  if factsProvided then fullOrder.filter (fun s => s ≠ Step.extractingFacts)
  else fullOrder

/-- Modelled from the spec: the step sequencer of the streaming endpoint
is not part of the repository snapshot; this definition follows section
4.7 of the spec.  Steps are walked in order with consecutive sequence
numbers; the first failing step replaces its progress event by the
terminal error event and stops the walk; if no step fails the terminal
result event follows the last progress event. -/
def emitFrom (failsAt : Option Step) : List Step → ℕ → List Event
  | [], n => [Event.result n]
  | s :: rest, n =>
    if failsAt = some s then [Event.error n]
    else Event.progress s n :: emitFrom failsAt rest (n + 1)

/-- Modelled from the spec: the event stream of one request. -/
def runSequencer (factsProvided : Bool) (failsAt : Option Step) : List Event :=
  emitFrom failsAt (pipelineSteps factsProvided) 1

/-- The sequence number carried by an event. -/
def seqOf : Event → ℕ
  | Event.progress _ n => n
  | Event.result n => n
  | Event.error n => n

/-- Whether an event is terminal. -/
def isTerminal : Event → Bool
  | Event.progress _ _ => false
  | Event.result _ => true
  | Event.error _ => true

/-- The steps reported by the progress events of a stream. -/
def stepsOf (evs : List Event) : List Step :=
  evs.filterMap (fun e =>
    match e with
    | Event.progress s _ => some s
    | _ => none)

/-- Sequence numbers of `emitFrom` are consecutive from the start. -/
theorem emitFrom_seq (failsAt : Option Step) :
    ∀ (steps : List Step) (n : ℕ),
      (emitFrom failsAt steps n).map seqOf =
        List.range' n (emitFrom failsAt steps n).length := by
  intro steps
  induction steps with
  | nil => intro n; rfl
  | cons s rest ih =>
    intro n
    rw [emitFrom]
    split_ifs
    · rfl
    · simp only [List.map_cons, List.length_cons, seqOf, ih (n + 1),
        List.range'_succ]

/-- The reported steps of `emitFrom` are an in-order selection of the
planned steps. -/
theorem emitFrom_steps (failsAt : Option Step) :
    ∀ (steps : List Step) (n : ℕ),
      List.Sublist (stepsOf (emitFrom failsAt steps n)) steps := by
  intro steps
  induction steps with
  | nil => intro n; simp [emitFrom, stepsOf]
  | cons s rest ih =>
    intro n
    rw [emitFrom]
    split_ifs
    · simp [stepsOf]
    · simp only [stepsOf, List.filterMap_cons]
      exact List.Sublist.cons₂ s (ih (n + 1))

/-- `emitFrom` ends in exactly one terminal event, preceded only by
progress events. -/
theorem emitFrom_terminal (failsAt : Option Step) :
    ∀ (steps : List Step) (n : ℕ),
      ∃ ps t, emitFrom failsAt steps n = ps ++ [t] ∧
        (∀ e ∈ ps, isTerminal e = false) ∧ isTerminal t = true := by
  intro steps
  induction steps with
  | nil =>
    intro n
    exact ⟨[], Event.result n, rfl, by simp, rfl⟩
  | cons s rest ih =>
    intro n
    rw [emitFrom]
    split_ifs
    · exact ⟨[], Event.error n, rfl, by simp, rfl⟩
    · obtain ⟨ps, t, heq, hps, ht⟩ := ih (n + 1)
      refine ⟨Event.progress s n :: ps, t, by rw [heq]; rfl, ?_, ht⟩
      intro e he
      rcases List.mem_cons.mp he with h | h
      · rw [h]; rfl
      · exact hps e h

/-- C5: for every request the sequencer emits its events in the fixed
pipeline order with no step repeated, with sequence numbers 1, 2, 3, ...
without gaps, and with exactly one terminal event (result or error) after
which no further event follows. -/
theorem sequencer_contract (factsProvided : Bool) (failsAt : Option Step) :
    (runSequencer factsProvided failsAt).map seqOf =
        List.range' 1 (runSequencer factsProvided failsAt).length ∧
      List.Sublist (stepsOf (runSequencer factsProvided failsAt)) fullOrder ∧
      (stepsOf (runSequencer factsProvided failsAt)).Nodup ∧
      ∃ ps t, runSequencer factsProvided failsAt = ps ++ [t] ∧
        (∀ e ∈ ps, isTerminal e = false) ∧ isTerminal t = true := by
  have hsub : List.Sublist (stepsOf (runSequencer factsProvided failsAt)) fullOrder := by
    have h1 := emitFrom_steps failsAt (pipelineSteps factsProvided) 1
    have h2 : List.Sublist (pipelineSteps factsProvided) fullOrder := by
      rw [pipelineSteps]
      split_ifs
      · exact List.filter_sublist fullOrder
      · exact List.Sublist.refl fullOrder
    exact h1.trans h2
  refine ⟨emitFrom_seq failsAt (pipelineSteps factsProvided) 1, hsub,
    hsub.nodup (by decide), emitFrom_terminal failsAt _ 1⟩

/-! ## TextNormalizer -/

/-- Lower-cases one character, for the case-insensitive whole-word
comparisons of the cleaning pipeline. -/
def lowerChar (c : Char) : Char :=
  if 'A' ≤ c ∧ c ≤ 'Z' then Char.ofNat (c.toNat + 32) else c

/-- Lower-cases a word. -/
def lowerW (w : List Char) : List Char := w.map lowerChar

/-- Modelled from the spec: the fixed vocabulary of outcome-leaking terms
removed whole-word and case-insensitively (the cleaning code itself is not
part of the repository snapshot; the vocabulary follows the outcome words
listed in `backend/docs/pipeline_explanation.md`). -/
def outcomeWords : List (List Char) :=
  ["affirmed".toList, "reversed".toList, "granted".toList,
    "denied".toList, "dismissed".toList, "remanded".toList,
    "vacated".toList]

/-- Modelled from the spec: the known procedural-disposition patterns
scrubbed from the final part of the text. -/
def dispositionPatterns : List (List Char) :=
  ["ordered".toList, "adjudged".toList, "decreed".toList]

/-- Modelled from the spec: the size in characters of the tail-scrubbing
window (the final ~2000 characters). -/
def tailWindow : ℕ := 2000

/-- Splits a character list into words at whitespace; `acc` holds the
characters of the current word in reverse. -/
def wordsAux : List Char → List Char → List (List Char)
  | [], acc => if acc.isEmpty then [] else [acc.reverse]
  | c :: cs, acc =>
    if isSpc c then
      if acc.isEmpty then wordsAux cs [] else acc.reverse :: wordsAux cs []
    else wordsAux cs (c :: acc)

/-- The whitespace-separated words of a text. -/
def wordsOf (s : List Char) : List (List Char) := wordsAux s []

/-- Joins words with single spaces; together with `wordsOf` this collapses
whitespace. -/
def unwords : List (List Char) → List Char
  | [] => []
  | [w] => w
  | w :: ws => w ++ ' ' :: unwords ws

/-- A word survives the outcome-vocabulary filter iff its lower-cased form
is not an outcome-leaking term. -/
def keepWord (w : List Char) : Bool := ! decide (lowerW w ∈ outcomeWords)

/-- Whether a word matches a procedural-disposition pattern. -/
def isDisposition (w : List Char) : Bool :=
  decide (lowerW w ∈ dispositionPatterns)

/-- Modelled from the spec: scrubs the words lying within the final
`tailWindow` characters of the joined text against the
procedural-disposition patterns; words before the window are kept. -/
def scrubTail : List (List Char) → List (List Char)
  | [] => []
  | w :: ws =>
    if (unwords (w :: ws)).length ≤ tailWindow ∧ isDisposition w = true then
      scrubTail ws
    else w :: scrubTail ws

/-- Modelled from the spec: `cleanText` removes the outcome vocabulary
whole-word and case-insensitively, scrubs the final ~2000 characters
against the procedural-disposition patterns, and collapses whitespace. -/
def cleanText (s : List Char) : List Char :=
  unwords (scrubTail ((wordsOf s).filter keepWord))

/-- Every word produced by `wordsAux` is nonempty and whitespace-free. -/
theorem wordsAux_good :
    ∀ (s acc : List Char), (∀ c ∈ acc, isSpc c = false) →
      ∀ w ∈ wordsAux s acc, w ≠ [] ∧ ∀ c ∈ w, isSpc c = false := by
  intro s
  induction s with
  | nil =>
    intro acc hacc w hw
    rw [wordsAux] at hw
    split_ifs at hw with he
    · exact absurd hw (List.not_mem_nil w)
    · rcases List.mem_singleton.mp hw with h
      subst h
      refine ⟨?_, ?_⟩
      · rw [Ne, List.reverse_eq_nil_iff]
        exact fun h => he (by rw [h]; rfl)
      · intro c hc
        exact hacc c (List.mem_reverse.mp hc)
  | cons c cs ih =>
    intro acc hacc w hw
    rw [wordsAux] at hw
    split_ifs at hw with hsp he
    · exact ih [] (by simp) w hw
    · rcases List.mem_cons.mp hw with h | h
      · subst h
        refine ⟨?_, ?_⟩
        · rw [Ne, List.reverse_eq_nil_iff]
          exact fun h => he (by rw [h]; rfl)
        · intro d hd
          exact hacc d (List.mem_reverse.mp hd)
      · exact ih [] (by simp) w h
    · refine ih (c :: acc) ?_ w hw
      intro d hd
      rcases List.mem_cons.mp hd with h | h
      · rw [h]
        exact Bool.not_eq_true _ ▸ (by simpa using hsp)
      · exact hacc d h

/-- Splitting absorbs a whitespace-free prefix into the accumulator. -/
theorem wordsAux_append (w : List Char) :
    ∀ (s acc : List Char), (∀ c ∈ w, isSpc c = false) →
      wordsAux (w ++ s) acc = wordsAux s (w.reverse ++ acc) := by
  induction w with
  | nil => intro s acc _; rfl
  | cons c w' ih =>
    intro s acc hw
    have hc : isSpc c = false := hw c (List.mem_cons_self c w')
    show wordsAux (c :: (w' ++ s)) acc = _
    rw [wordsAux, if_neg (by rw [hc]; exact Bool.false_ne_true)]
    rw [ih s (c :: acc) (fun d hd => hw d (List.mem_cons_of_mem c hd))]
    simp [List.append_assoc]

/-- Splitting at a leading space flushes a nonempty accumulator. -/
theorem wordsAux_space (s acc : List Char) (h : acc ≠ []) :
    wordsAux (' ' :: s) acc = acc.reverse :: wordsAux s [] := by
  have hne : ¬ (acc.isEmpty = true) := by
    simpa [List.isEmpty_iff] using h
  rw [wordsAux, if_pos (by decide : isSpc ' ' = true), if_neg hne]

/-- Splitting the joined words of nonempty whitespace-free words recovers
exactly those words. -/
theorem wordsOf_unwords :
    ∀ ws : List (List Char),
      (∀ w ∈ ws, w ≠ [] ∧ ∀ c ∈ w, isSpc c = false) →
      wordsOf (unwords ws) = ws := by
  intro ws
  induction ws with
  | nil => intro _; rfl
  | cons w ws ih =>
    intro hgood
    obtain ⟨hwne, hwc⟩ := hgood w (List.mem_cons_self w ws)
    have hrne : w.reverse ≠ [] := fun hrev =>
      hwne (List.reverse_eq_nil_iff.mp hrev)
    cases ws with
    | nil =>
      show wordsOf (unwords [w]) = [w]
      have h1 : unwords [w] = w := rfl
      have h2 : wordsAux (w ++ []) [] = wordsAux [] (w.reverse ++ []) :=
        wordsAux_append w [] [] hwc
      rw [List.append_nil, List.append_nil] at h2
      have hne : ¬ (w.reverse.isEmpty = true) := by
        simpa [List.isEmpty_iff] using hrne
      rw [h1, wordsOf, h2, wordsAux, if_neg hne, List.reverse_reverse]
    | cons w2 ws2 =>
      have hrest : ∀ v ∈ w2 :: ws2, v ≠ [] ∧ ∀ c ∈ v, isSpc c = false :=
        fun v hv => hgood v (List.mem_cons_of_mem w hv)
      have hu : unwords (w :: w2 :: ws2) = w ++ ' ' :: unwords (w2 :: ws2) :=
        rfl
      have h2 : wordsAux (w ++ ' ' :: unwords (w2 :: ws2)) [] =
          wordsAux (' ' :: unwords (w2 :: ws2)) (w.reverse ++ []) :=
        wordsAux_append w _ [] hwc
      rw [List.append_nil] at h2
      rw [wordsOf, hu, h2, wordsAux_space _ _ hrne, List.reverse_reverse]
      exact congrArg (w :: ·) (ih hrest)

/-- Joining never gets shorter when a word is prepended. -/
theorem unwords_length_cons (w : List Char) (ws : List (List Char)) :
    (unwords ws).length ≤ (unwords (w :: ws)).length := by
  cases ws with
  | nil => simp [unwords]
  | cons w2 ws2 =>
    have h : unwords (w :: w2 :: ws2) = w ++ ' ' :: unwords (w2 :: ws2) := rfl
    rw [h]
    simp only [List.length_append, List.length_cons]
    omega

/-- Joining is monotone with respect to the sublist relation. -/
theorem unwords_length_sublist :
    ∀ {ws' ws : List (List Char)}, List.Sublist ws' ws →
      (unwords ws').length ≤ (unwords ws).length := by
  intro ws' ws h
  induction h with
  | slnil => exact le_refl _
  | cons a _ ih => exact le_trans ih (unwords_length_cons a _)
  | @cons₂ l₁ l₂ a h ih =>
    cases l₁ with
    | nil =>
      cases l₂ with
      | nil => exact le_refl _
      | cons b bs =>
        have h2 : unwords (a :: b :: bs) = a ++ ' ' :: unwords (b :: bs) :=
          rfl
        show (unwords [a]).length ≤ _
        rw [h2]
        simp only [unwords, List.length_append, List.length_cons]
        omega
    | cons x xs =>
      cases l₂ with
      | nil => exact absurd (List.sublist_nil.mp h) (by simp)
      | cons y ys =>
        have ha : unwords (a :: x :: xs) = a ++ ' ' :: unwords (x :: xs) :=
          rfl
        have hb : unwords (a :: y :: ys) = a ++ ' ' :: unwords (y :: ys) :=
          rfl
        rw [ha, hb]
        simp only [List.length_append, List.length_cons]
        omega

/-- The joined split of a text is never longer than the text. -/
theorem unwords_wordsAux_length :
    ∀ (s acc : List Char),
      (unwords (wordsAux s acc)).length ≤ s.length + acc.length := by
  intro s
  induction s with
  | nil =>
    intro acc
    rw [wordsAux]
    split_ifs
    · simp [unwords]
    · simp [unwords]
  | cons c cs ih =>
    intro acc
    rw [wordsAux]
    split_ifs with hsp he
    · have := ih []
      simp only [List.length_nil, Nat.add_zero] at this
      simp only [List.length_cons]
      omega
    · cases hrec : wordsAux cs [] with
      | nil =>
        simp only [hrec, unwords, List.length_reverse, List.length_cons]
        omega
      | cons r rs =>
        have h2 : unwords (acc.reverse :: r :: rs) =
            acc.reverse ++ ' ' :: unwords (r :: rs) := rfl
        have := ih []
        rw [hrec] at this
        simp only [List.length_nil, Nat.add_zero] at this
        rw [h2]
        simp only [List.length_append, List.length_reverse, List.length_cons]
        omega
    · have := ih (c :: acc)
      simp only [List.length_cons] at this ⊢
      omega

/-- The cleaned split of a text is never longer than the text. -/
theorem unwords_wordsOf_length (s : List Char) :
    (unwords (wordsOf s)).length ≤ s.length := by
  have := unwords_wordsAux_length s []
  simpa using this

/-- Scrubbing keeps an in-order selection of the words. -/
theorem scrubTail_sublist :
    ∀ ws : List (List Char), List.Sublist (scrubTail ws) ws := by
  intro ws
  induction ws with
  | nil => exact List.Sublist.refl []
  | cons w ws ih =>
    rw [scrubTail]
    split_ifs
    · exact ih.trans (List.sublist_cons_self w ws)
    · exact List.Sublist.cons₂ w ih

/-- When the whole joined text fits in the scrub window, scrubbing is
exactly the disposition-pattern filter. -/
theorem scrubTail_eq_filter :
    ∀ ws : List (List Char), (unwords ws).length ≤ tailWindow →
      scrubTail ws = ws.filter (fun w => ! isDisposition w) := by
  intro ws
  induction ws with
  | nil => intro _; rfl
  | cons w ws ih =>
    intro h
    have hrest : (unwords ws).length ≤ tailWindow :=
      le_trans (unwords_length_cons w ws) h
    rw [scrubTail, List.filter_cons]
    by_cases hd : isDisposition w = true
    · rw [if_pos ⟨h, hd⟩, if_neg (by rw [hd]; simp), ih hrest]
    · rw [if_neg (fun hc => hd hc.2), ih hrest,
        if_pos (by rw [Bool.not_eq_true] at hd; rw [hd]; rfl)]

/-- A 1992-character filler word. -/
def fillerWord : List Char := List.replicate 1992 'a'

/-- A concrete text longer than the scrub window: a disposition word just
outside the final 2000 characters, a 1992-character filler word, and a
disposition word inside the window.  The first cleaning pass removes only
the final disposition word; the text then shrinks, the leading disposition
word falls into the window, and a second pass removes it as well. -/
def nonIdemInput : List Char :=
  "ordered".toList ++ ' ' :: (fillerWord ++ ' ' :: "ordered".toList)

/-- The filler word contains no whitespace. -/
theorem fillerWord_no_space : ∀ c ∈ fillerWord, isSpc c = false := by
  intro c hc
  rw [List.eq_of_mem_replicate hc]
  decide

/-- The filler word is not an outcome word and not a disposition pattern:
its lower-cased form is itself and its length differs from every listed
word. -/
theorem fillerWord_lower : lowerW fillerWord = fillerWord := by
  rw [lowerW, fillerWord, List.map_replicate,
    show lowerChar 'a' = 'a' from by decide]

/-- The filler word survives the outcome-word filter. -/
theorem fillerWord_keep : keepWord fillerWord = true := by
  rw [keepWord, fillerWord_lower]
  have hnm : fillerWord ∉ outcomeWords := by
    intro hm
    rw [outcomeWords] at hm
    simp only [List.mem_cons, List.not_mem_nil, or_false] at hm
    rcases hm with h | h | h | h | h | h | h <;>
      · have hlen := congrArg List.length h
        rw [fillerWord, List.length_replicate] at hlen
        exact absurd hlen (by decide)
  rw [decide_eq_false hnm]
  rfl

/-- The filler word is not a disposition pattern. -/
theorem fillerWord_not_disposition : isDisposition fillerWord = false := by
  rw [isDisposition, fillerWord_lower]
  apply decide_eq_false
  intro hm
  rw [dispositionPatterns] at hm
  simp only [List.mem_cons, List.not_mem_nil, or_false] at hm
  rcases hm with h | h | h <;>
    · have hlen := congrArg List.length h
      rw [fillerWord, List.length_replicate] at hlen
      exact absurd hlen (by decide)

/-- The words of the counterexample text. -/
theorem nonIdemInput_words :
    wordsOf nonIdemInput =
      ["ordered".toList, fillerWord, "ordered".toList] := by
  have hrne1 : ("ordered".toList).reverse ≠ [] := by decide
  have hrne2 : fillerWord.reverse ≠ [] := by
    rw [Ne, List.reverse_eq_nil_iff, fillerWord]
    simp
  rw [nonIdemInput, wordsOf,
    wordsAux_append _ _ _ (by decide : ∀ c ∈ "ordered".toList, isSpc c = false),
    List.append_nil, wordsAux_space _ _ hrne1, List.reverse_reverse,
    wordsAux_append _ _ _ fillerWord_no_space, List.append_nil,
    wordsAux_space _ _ hrne2, List.reverse_reverse,
    show wordsAux ("ordered".toList) [] = ["ordered".toList] from by decide]

/-- Length of the joined counterexample words. -/
theorem nonIdemInput_unwords_len :
    (unwords ["ordered".toList, fillerWord, "ordered".toList]).length
      = 2008 := by
  have h : unwords ["ordered".toList, fillerWord, "ordered".toList]
      = "ordered".toList ++ ' ' :: (fillerWord ++ ' ' :: "ordered".toList) :=
    rfl
  rw [h]
  simp only [List.length_append, List.length_cons, fillerWord,
    List.length_replicate]
  decide

/-- Length of the joined first-pass output. -/
theorem firstPass_unwords_len :
    (unwords ["ordered".toList, fillerWord]).length = 2000 := by
  have h : unwords ["ordered".toList, fillerWord]
      = "ordered".toList ++ ' ' :: fillerWord := rfl
  rw [h]
  simp only [List.length_append, List.length_cons, fillerWord,
    List.length_replicate]
  decide

/-- The first cleaning pass keeps the leading disposition word (outside
the window) and drops only the final one. -/
theorem cleanText_nonIdemInput :
    cleanText nonIdemInput = unwords ["ordered".toList, fillerWord] := by
  rw [cleanText, nonIdemInput_words]
  have hfilter :
      (["ordered".toList, fillerWord, "ordered".toList] : List (List Char)).filter
        keepWord = ["ordered".toList, fillerWord, "ordered".toList] := by
    simp only [List.filter_cons, fillerWord_keep,
      show keepWord ("ordered".toList) = true from by decide, if_true,
      List.filter_nil]
  rw [hfilter, scrubTail]
  rw [if_neg (fun hc => absurd (nonIdemInput_unwords_len ▸ hc.1) (by decide))]
  rw [scrubTail]
  have hd2 : ¬ ((unwords [fillerWord, "ordered".toList]).length ≤ tailWindow
      ∧ isDisposition fillerWord = true) := by
    intro hc
    rw [fillerWord_not_disposition] at hc
    exact absurd hc.2 (by decide)
  rw [if_neg hd2, scrubTail]
  rw [if_pos ⟨by decide, by decide⟩]
  rfl

/-- The second cleaning pass also drops the leading disposition word,
which the shrinking of the text pulled into the window. -/
theorem cleanText_cleanText_nonIdemInput :
    cleanText (cleanText nonIdemInput) = fillerWord := by
  rw [cleanText_nonIdemInput, cleanText]
  have hgood : ∀ w ∈ (["ordered".toList, fillerWord] : List (List Char)),
      w ≠ [] ∧ ∀ c ∈ w, isSpc c = false := by
    intro w hw
    simp only [List.mem_cons, List.not_mem_nil, or_false] at hw
    rcases hw with h | h
    · rw [h]; exact ⟨by decide, by decide⟩
    · rw [h]
      refine ⟨?_, fillerWord_no_space⟩
      rw [fillerWord]
      simp
  rw [wordsOf_unwords _ hgood]
  have hfilter :
      (["ordered".toList, fillerWord] : List (List Char)).filter keepWord
        = ["ordered".toList, fillerWord] := by
    simp only [List.filter_cons, fillerWord_keep,
      show keepWord ("ordered".toList) = true from by decide, if_true,
      List.filter_nil]
  rw [hfilter, scrubTail]
  rw [if_pos ⟨by rw [firstPass_unwords_len]; decide, by decide⟩]
  rw [scrubTail]
  have hd2 : ¬ ((unwords [fillerWord]).length ≤ tailWindow
      ∧ isDisposition fillerWord = true) := by
    intro hc
    rw [fillerWord_not_disposition] at hc
    exact absurd hc.2 (by decide)
  rw [if_neg hd2, scrubTail]
  rfl

/-- C8 counterexample: `cleanText` is not idempotent; on `nonIdemInput`
(a 2008-character text) a second application scrubs a disposition pattern
that the shrinking of the text pulled into the final-2000-character
window. -/
theorem cleanText_not_idempotent :
    cleanText (cleanText nonIdemInput) ≠ cleanText nonIdemInput := by
  rw [cleanText_cleanText_nonIdemInput, cleanText_nonIdemInput]
  intro h
  have hlen := congrArg List.length h
  rw [firstPass_unwords_len, fillerWord, List.length_replicate] at hlen
  exact absurd hlen (by decide)

/-- C8 amended: `cleanText` is idempotent on every input of at most 2000
characters, where the scrub window covers the whole text. -/
theorem cleanText_idempotent_short (s : List Char)
    (h : s.length ≤ tailWindow) :
    cleanText (cleanText s) = cleanText s := by
  have hgood0 : ∀ w ∈ wordsOf s, w ≠ [] ∧ ∀ c ∈ w, isSpc c = false :=
    wordsAux_good s [] (by simp)
  have hgood1 : ∀ w ∈ (wordsOf s).filter keepWord,
      w ≠ [] ∧ ∀ c ∈ w, isSpc c = false :=
    fun w hw => hgood0 w (List.mem_of_mem_filter hw)
  have hlen1 : (unwords ((wordsOf s).filter keepWord)).length ≤ tailWindow :=
    le_trans (unwords_length_sublist (List.filter_sublist _))
      (le_trans (unwords_wordsOf_length s) h)
  have hct : cleanText s =
      unwords (((wordsOf s).filter keepWord).filter
        (fun w => ! isDisposition w)) := by
    rw [cleanText, scrubTail_eq_filter _ hlen1]
  have hgood2 : ∀ w ∈ ((wordsOf s).filter keepWord).filter
      (fun w => ! isDisposition w), w ≠ [] ∧ ∀ c ∈ w, isSpc c = false :=
    fun w hw => hgood1 w (List.mem_of_mem_filter hw)
  have hround : wordsOf (unwords (((wordsOf s).filter keepWord).filter
      (fun w => ! isDisposition w))) =
      ((wordsOf s).filter keepWord).filter (fun w => ! isDisposition w) :=
    wordsOf_unwords _ hgood2
  have hkeep2 : (((wordsOf s).filter keepWord).filter
      (fun w => ! isDisposition w)).filter keepWord =
      ((wordsOf s).filter keepWord).filter (fun w => ! isDisposition w) := by
    apply List.filter_eq_self.mpr
    intro w hw
    exact (List.mem_filter.mp (List.mem_of_mem_filter hw)).2
  have hlen2 : (unwords (((wordsOf s).filter keepWord).filter
      (fun w => ! isDisposition w))).length ≤ tailWindow :=
    le_trans (unwords_length_sublist (List.filter_sublist _)) hlen1
  have hscrub2 : scrubTail (((wordsOf s).filter keepWord).filter
      (fun w => ! isDisposition w)) =
      ((wordsOf s).filter keepWord).filter (fun w => ! isDisposition w) := by
    rw [scrubTail_eq_filter _ hlen2]
    apply List.filter_eq_self.mpr
    intro w hw
    exact (List.mem_filter.mp hw).2
  rw [hct, cleanText, hround, hkeep2, hscrub2]

/-- Witness for the amended C8 on a concrete short legal text. -/
theorem cleanText_idempotent_short_witness :
    ("The Court AFFIRMED the judgment below".toList).length ≤ tailWindow ∧
      cleanText (cleanText ("The Court AFFIRMED the judgment below".toList)) =
        cleanText ("The Court AFFIRMED the judgment below".toList) :=
  ⟨by decide,
    cleanText_idempotent_short ("The Court AFFIRMED the judgment below".toList)
      (by decide)⟩

end Capstone
